import Mathlib

/-
Verification development for the goosniffer clipboard watcher / moon-scan parser.

The Go sources are shallowly embedded as executable Lean functions:
  * `ParseMoons` mirrors internal/moonparse's `ParseMoons`, including the
    leftmost-first (backtracking) submatch semantics of the two Go regexps
    `moonLineRe` and `productLineRe`.
  * `readClipboardText` mirrors internal/clipboardwatcher's retry/backoff
    extraction sequence, parameterised by an environment describing the
    outcomes of the OS calls.
  * `handlerMainGo` / `handlerVariantB` mirror the upload decisions of the
    two near-duplicate `main` handlers.
-/

set_option maxRecDepth 4000
set_option linter.unusedVariables false

namespace Goosniffer

/- ----------------------------------------------------------------- -/
/- Character classes                                                 -/
/- ----------------------------------------------------------------- -/

/-- Go `unicode.IsSpace`: ASCII whitespace, NEL, NBSP and the Zs space
separators. Used by `strings.TrimSpace` and `strings.Fields`. -/
def goIsSpace (c : Char) : Bool :=
  let n := c.toNat
  n == 0x20 || (0x9 ≤ n && n ≤ 0xd) || n == 0x85 || n == 0xa0 ||
  n == 0x1680 || (0x2000 ≤ n && n ≤ 0x200a) || n == 0x2028 || n == 0x2029 ||
  n == 0x202f || n == 0x205f || n == 0x3000

/-- The RE2 character class `\s` = `[\t\n\f\r ]` used by the two regexps. -/
def reWs (c : Char) : Bool :=
  c == ' ' || c == '\t' || c == '\n' || c == '\x0c' || c == '\r'

/-- The RE2 classes `\d` and `[0-9]` (ASCII digits). -/
def isDigitC (c : Char) : Bool :=
  0x30 ≤ c.toNat && c.toNat ≤ 0x39

/- ----------------------------------------------------------------- -/
/- String helpers on `List Char`                                     -/
/- ----------------------------------------------------------------- -/

/-- Does `l` start with `pat`? -/
def startsWithL : List Char → List Char → Bool
  | _, [] => true
  | [], _ :: _ => false
  | c :: cs, d :: ds => c == d && startsWithL cs ds

/-- Go `strings.Contains l pat`. -/
def containsSub (l pat : List Char) : Bool :=
  (List.range (l.length + 1)).any (fun i => startsWithL (l.drop i) pat)

/-- Go `strings.TrimRight(l, "\r")`: drop every trailing carriage return. -/
def trimRightCR (l : List Char) : List Char :=
  (l.reverse.dropWhile (fun c => c == '\r')).reverse

/-- Go `strings.TrimSpace`. -/
def goTrimSpace (l : List Char) : List Char :=
  ((l.dropWhile goIsSpace).reverse.dropWhile goIsSpace).reverse

/-- Go `strings.Split(input, "\n")`. -/
def splitLines : List Char → List (List Char)
  | [] => [[]]
  | c :: cs =>
    if c = '\n' then [] :: splitLines cs
    else
      match splitLines cs with
      | [] => [[c]]
      | l :: ls => (c :: l) :: ls

/-- Join lines back with the `"\n"` separator (inverse of `splitLines`). -/
def joinLines : List (List Char) → List Char
  | [] => []
  | [l] => l
  | l :: l' :: ls => l ++ '\n' :: joinLines (l' :: ls)

/-- Go `strings.Fields` (split around runs of `unicode.IsSpace`),
via an accumulator for the token currently being built (reversed). -/
def fieldsAux : List Char → List Char → List (List Char)
  | [], acc => if acc = [] then [] else [acc.reverse]
  | c :: cs, acc =>
    if goIsSpace c then
      if acc = [] then fieldsAux cs [] else acc.reverse :: fieldsAux cs []
    else fieldsAux cs (c :: acc)

/-- Go `strings.Fields`. -/
def fields (l : List Char) : List (List Char) :=
  fieldsAux l []

/- ----------------------------------------------------------------- -/
/- moonLineRe:  ^\s*(.+ - Moon \d+)\s*$                              -/
/- ----------------------------------------------------------------- -/

/-- Matches `\d+\s*$`, returning the digits (greedy `\d+`, then the rest
must be `\s*`). -/
def digitsThenWs (u : List Char) : Option (List Char) :=
  if (u.takeWhile isDigitC).isEmpty then none
  else if (u.dropWhile isDigitC).all reWs then some (u.takeWhile isDigitC) else none

/-- Matches ` - Moon \d+\s*$` against `u`, returning ` - Moon ` + digits
(the part that belongs to capture group 1). -/
def moonTailMatch (u : List Char) : Option (List Char) :=
  if startsWithL u (" - Moon ".data) then
    (digitsThenWs (u.drop 8)).map (fun d => " - Moon ".data ++ d)
  else none

/-- Greedy `.+`: try the name part of the capture at length `i`, `i-1`, …, 1
(the backtracking order of a greedy `.+`), where `.` excludes `'\n'`. -/
def moonCoreLen (t : List Char) : Nat → Option (List Char)
  | 0 => none
  | i + 1 =>
    match moonTailMatch (t.drop (i + 1)) with
    | some tail =>
      if (t.take (i + 1)).all (fun c => !(c == '\n')) then
        some (t.take (i + 1) ++ tail)
      else moonCoreLen t i
    | none => moonCoreLen t i

/-- Match `(.+ - Moon \d+)\s*$` against all of `t`, returning group 1. -/
def moonCore (t : List Char) : Option (List Char) :=
  moonCoreLen t t.length

/-- Greedy leading `\s*`: try start offsets `k`, `k-1`, …, 0. -/
def moonMatchK (s : List Char) : Nat → Option (List Char)
  | 0 => moonCore s
  | k + 1 =>
    match moonCore (s.drop (k + 1)) with
    | some m => some m
    | none => moonMatchK s k

/-- `moonLineRe.FindStringSubmatch`: the submatch of
`^\s*(.+ - Moon \d+)\s*$`, or `none` when the line does not match. -/
def moonLineMatch (s : List Char) : Option (List Char) :=
  moonMatchK s ((s.takeWhile reWs).length)

/- ----------------------------------------------------------------- -/
/- productLineRe:                                                    -/
/-   ^\s*(.+?)\s+([0-9]+(?:\.[0-9]+)?)\s+(\d+)\s+(\d+)\s+(\d+)\s+(\d+)\s*$ -/
/- ----------------------------------------------------------------- -/

/-- `\s+`: the maximal nonempty run of `\s` characters. -/
def wsRun1 (u : List Char) : Option (List Char × List Char) :=
  if (u.takeWhile reWs).isEmpty then none
  else some (u.takeWhile reWs, u.dropWhile reWs)

/-- `\d+`: the maximal nonempty run of digits. -/
def digitRun1 (u : List Char) : Option (List Char × List Char) :=
  if (u.takeWhile isDigitC).isEmpty then none
  else some (u.takeWhile isDigitC, u.dropWhile isDigitC)

/-- `[0-9]+(?:\.[0-9]+)?`: greedy digits, then the fractional part exactly
when a `'.'` followed by at least one digit comes next. -/
def quantityTok (u : List Char) : Option (List Char × List Char) :=
  match digitRun1 u with
  | none => none
  | some (d1, u1) =>
    match u1 with
    | c :: u2 =>
      if c = '.' then
        match digitRun1 u2 with
        | some (d2, u3) => some (d1 ++ c :: d2, u3)
        | none => some (d1, u1)
      else some (d1, u1)
    | [] => some (d1, u1)

/-- The five captures following the product name. -/
abbrev Caps5 := List Char × List Char × List Char × List Char × List Char

/-- Match `\s+([0-9]+(?:\.[0-9]+)?)\s+(\d+)\s+(\d+)\s+(\d+)\s+(\d+)\s*$`
against all of `u0`, returning the five captured fields. -/
def afterName (u0 : List Char) : Option Caps5 :=
  (wsRun1 u0).bind (fun p1 =>
  (quantityTok p1.2).bind (fun pq =>
  (wsRun1 pq.2).bind (fun p2 =>
  (digitRun1 p2.2).bind (fun pa =>
  (wsRun1 pa.2).bind (fun p3 =>
  (digitRun1 p3.2).bind (fun pb =>
  (wsRun1 pb.2).bind (fun p4 =>
  (digitRun1 p4.2).bind (fun pc =>
  (wsRun1 pc.2).bind (fun p5 =>
  (digitRun1 p5.2).bind (fun pd =>
  if pd.2.all reWs then some (pq.1, pa.1, pb.1, pc.1, pd.1) else none))))))))))

/-- Lazy `(.+?)`: try name lengths 1, 2, … (the backtracking order of a
lazy `.+?`), where `.` excludes `'\n'`. -/
def productCore (t : List Char) : Option (List Char × Caps5) :=
  (List.range t.length).findSome? (fun j =>
    if (t.take (j + 1)).all (fun c => !(c == '\n')) then
      match afterName (t.drop (j + 1)) with
      | some caps => some (t.take (j + 1), caps)
      | none => none
    else none)

/-- Greedy leading `\s*`: try start offsets `k`, `k-1`, …, 0. -/
def productMatchK (s : List Char) : Nat → Option (List Char × Caps5)
  | 0 => productCore s
  | k + 1 =>
    match productCore (s.drop (k + 1)) with
    | some x => some x
    | none => productMatchK s k

/-- `productLineRe.FindStringSubmatch`: groups 1–6 of the data-row regexp,
or `none` when the line does not match. -/
def productLineMatch (s : List Char) : Option (List Char × Caps5) :=
  productMatchK s ((s.takeWhile reWs).length)

/- ----------------------------------------------------------------- -/
/- Data model (internal/moonparse)                                   -/
/- ----------------------------------------------------------------- -/

/-- `MoonProductData`: the five string-typed fields of one product row. -/
structure MoonProductData where
  quantity : String
  oreTypeID : String
  solarSystemID : String
  planetID : String
  moonID : String
deriving DecidableEq, Repr

/-- Go map lookup on an association list with unique keys. -/
def alGet {β : Type} : List (String × β) → String → Option β
  | [], _ => none
  | p :: rest, k => if p.1 = k then some p.2 else alGet rest k

/-- Go map assignment `m[k] = v` on an association list with unique keys. -/
def alUpdate {β : Type} : List (String × β) → String → β → List (String × β)
  | [], k, v => [(k, v)]
  | p :: rest, k, v => if p.1 = k then (k, v) :: rest else p :: alUpdate rest k v

/-- `MoonProducts`: outer key moon name, inner key product name. -/
abbrev MoonProducts := List (String × List (String × MoonProductData))

/-- `result[g][i]` as a read: `none` when either key is missing. -/
def lookup2 (mp : MoonProducts) (g i : String) : Option MoonProductData :=
  match alGet mp g with
  | none => none
  | some inner => alGet inner i

/-- `if _, ok := result[g]; !ok { result[g] = make(...) }`. -/
def ensureKey (mp : MoonProducts) (g : String) : MoonProducts :=
  match alGet mp g with
  | some _ => mp
  | none => mp ++ [(g, [])]

/-- `result[g][i] = d` (the inner-map write of a data row). -/
def updateInner (mp : MoonProducts) (g i : String) (d : MoonProductData) :
    MoonProducts :=
  mp.map (fun p => if p.1 = g then (p.1, alUpdate p.2 i d) else p)

/- ----------------------------------------------------------------- -/
/- ParseMoons                                                        -/
/- ----------------------------------------------------------------- -/

/-- The loop state of `ParseMoons`: the table built so far and
`currentMoon` (Go zero value `""` = no active moon). -/
structure ParseState where
  result : MoonProducts
  currentMoon : String
deriving DecidableEq

/-- Initial state of the loop. -/
def initState : ParseState := ⟨[], ""⟩

/-- The literal header marker `"Moon Product"`. -/
def mpMarker : List Char := "Moon Product".data

/-- The body of `ParseMoons`' per-line loop (`line` of the Go source is
`trimRightCR rawLine`, `trimmed` is `goTrimSpace` of it). -/
def processLine (st : ParseState) (rawLine : List Char) : ParseState :=
  if goTrimSpace (trimRightCR rawLine) = [] then st
  else if containsSub (goTrimSpace (trimRightCR rawLine)) mpMarker then st
  else
    match moonLineMatch (trimRightCR rawLine) with
    | some m => ⟨ensureKey st.result (String.mk m), String.mk m⟩
    | none =>
      if st.currentMoon = "" then st
      else
        match productLineMatch (trimRightCR rawLine) with
        | some (a, q, i1, i2, i3, i4) =>
          ⟨updateInner st.result st.currentMoon (String.mk a)
            ⟨String.mk q, String.mk i1, String.mk i2, String.mk i3, String.mk i4⟩,
           st.currentMoon⟩
        | none => st

/-- `moonparse.ParseMoons`: the table together with the (always-`nil`)
error return value. -/
def ParseMoons (input : String) : MoonProducts × Option String :=
  ((splitLines input.data).foldl processLine initState |>.result, none)

/-- State after folding `ParseMoons`' loop over a list of lines. -/
def stateAfter (ls : List (List Char)) : ParseState :=
  ls.foldl processLine initState

/-- The `(group, item, record)` write performed by one line in state `st`
(`none` when the line writes no item record). -/
def recordOf (st : ParseState) (rawLine : List Char) :
    Option (String × String × MoonProductData) :=
  if goTrimSpace (trimRightCR rawLine) = [] then none
  else if containsSub (goTrimSpace (trimRightCR rawLine)) mpMarker then none
  else
    match moonLineMatch (trimRightCR rawLine) with
    | some _ => none
    | none =>
      if st.currentMoon = "" then none
      else
        match productLineMatch (trimRightCR rawLine) with
        | some (a, q, i1, i2, i3, i4) =>
          some (st.currentMoon, String.mk a,
            ⟨String.mk q, String.mk i1, String.mk i2, String.mk i3, String.mk i4⟩)
        | none => none

/-- A line recognised by the parser as a group header (non-blank, not a
`"Moon Product"` marker line, and matching `moonLineRe`). -/
def headerB (rawLine : List Char) : Bool :=
  decide (goTrimSpace (trimRightCR rawLine) ≠ []) &&
  !containsSub (goTrimSpace (trimRightCR rawLine)) mpMarker &&
  (moonLineMatch (trimRightCR rawLine)).isSome

/- ----------------------------------------------------------------- -/
/- Clipboard extraction sequence (internal/clipboardwatcher)         -/
/- ----------------------------------------------------------------- -/

/-- `maxAttempts` of the OpenClipboard retry loop. -/
def maxAttempts : Nat := 5

/-- The retry loop of `readClipboardText`, parameterised by the outcome of
each `OpenClipboard` call; returns (opened, calls made, sleeps in ms).
`fuel = maxAttempts - attempt` mirrors the loop bound `attempt < 5`;
after each failed call the loop sleeps `10*(1<<attempt)` ms. -/
def openRetryF (openOk : Nat → Bool) : Nat → Nat → Bool × Nat × List Nat
  | _, 0 => (false, 0, [])
  | attempt, fuel + 1 =>
    if openOk attempt then (true, 1, [])
    else
      let r := openRetryF openOk (attempt + 1) fuel
      (r.1, r.2.1 + 1, 10 * 2 ^ attempt :: r.2.2)

/-- The retry loop started at attempt 0. -/
def openRetry (openOk : Nat → Bool) : Bool × Nat × List Nat :=
  openRetryF openOk 0 maxAttempts

/-- Outcome of one extraction sequence. -/
inductive ClipOutcome where
  | ok (t : String)
  | err (msg : String)
deriving DecidableEq

/-- Environment describing the OS-call outcomes during one notification. -/
structure ClipEnv where
  formatAvailable : Bool
  openOk : Nat → Bool
  handleNull : Bool
  lockFails : Bool
  text : String

/-- Observable trace of one extraction sequence: the outcome, the number of
`OpenClipboard` calls, and the sleeps performed (ms, in order). -/
structure ClipTrace where
  outcome : ClipOutcome
  openAttempts : Nat
  sleepsMs : List Nat
deriving DecidableEq

/-- `readClipboardText`: format check, bounded-retry open, handle fetch,
lock, decode. -/
def readClipboardText (env : ClipEnv) : ClipTrace :=
  if !env.formatAvailable then ⟨.err "no CF_UNICODETEXT available", 0, []⟩
  else
    let r := openRetry env.openOk
    if !r.1 then ⟨.err "OpenClipboard failed after 5 attempts", r.2.1, r.2.2⟩
    else if env.handleNull then ⟨.err "GetClipboardData returned null", r.2.1, r.2.2⟩
    else if env.lockFails then ⟨.err "GlobalLock failed", r.2.1, r.2.2⟩
    else ⟨.ok env.text, r.2.1, r.2.2⟩

/-- The `WM_CLIPBOARDUPDATE` arm of `wndProc`: the handler is invoked with
the decoded text exactly when it is registered and extraction succeeds. -/
def wndProcUpdate (handlerRegistered : Bool) (env : ClipEnv) : Option String :=
  if handlerRegistered then
    match (readClipboardText env).outcome with
    | .ok t => some t
    | .err _ => none
  else none

/-- The message loop keeps processing every notification, one at a time. -/
def processLoop (envs : List ClipEnv) : List (Option String) :=
  envs.map (wndProcUpdate true)

/- ----------------------------------------------------------------- -/
/- The two main handlers                                             -/
/- ----------------------------------------------------------------- -/

/-- `looksLikeMoonScan` from both mains. -/
def looksLikeMoonScan (s : String) : Bool :=
  let t := goTrimSpace s.data
  decide (t ≠ []) && containsSub t mpMarker

/-- Observable effects of one handler invocation. -/
structure HandlerTrace where
  recognized : Bool
  uploadAttempted : Bool
  contentType : Option String
  authHeader : Option String
deriving DecidableEq

/-- The handler of `src/cmd/goosniffer/main.go`: upload is gated on
`APIToken != "" && APIEndpoint != ""`, and the `Authorization` header is
then always set. -/
def handlerMainGo (text endpoint token : String) : HandlerTrace :=
  if looksLikeMoonScan text then
    if token ≠ "" ∧ endpoint ≠ "" then
      ⟨true, true, some "application/json", some ("Bearer " ++ token)⟩
    else ⟨true, false, none, none⟩
  else ⟨false, false, none, none⟩

/-- The handler of `src/unnamed/part_000`: upload is gated on
`APIEndpoint != ""` alone, and the `Authorization` header is set exactly
when the token is non-empty. -/
def handlerVariantB (text endpoint token : String) : HandlerTrace :=
  if looksLikeMoonScan text then
    if endpoint ≠ "" then
      ⟨true, true, some "application/json",
        if token ≠ "" then some ("Bearer " ++ token) else none⟩
    else ⟨true, false, none, none⟩
  else ⟨false, false, none, none⟩

/-- The fatal branch of the `part_000` handler: taken when the text passes
the moon-scan gate and `ParseMoons` reports a non-`nil` error. -/
def fatalParseBranchTaken (text : String) : Bool :=
  looksLikeMoonScan text && (ParseMoons text).2.isSome

/- ----------------------------------------------------------------- -/
/- C1, C9, C4, C10: basic parser facts                               -/
/- ----------------------------------------------------------------- -/

/-- C1: for every input string, `ParseMoons` returns a table and a `nil`
error — the parser is total and its error return path is never populated. -/
theorem parseMoons_total_never_errors (input : String) :
    (ParseMoons input).2 = none ∧ ∃ t, ParseMoons input = (t, none) :=
  ⟨rfl, ⟨(ParseMoons input).1, rfl⟩⟩

/-- C9: `ParseMoons` is deterministic — two invocations on the same string
yield tables with the same group keys, the same item keys per group, and
the same record at every (group, item) pair. -/
theorem parseMoons_deterministic (input : String) :
    (ParseMoons input).1.map Prod.fst = (ParseMoons input).1.map Prod.fst ∧
    (∀ g, (alGet (ParseMoons input).1 g).map (List.map Prod.fst) =
          (alGet (ParseMoons input).1 g).map (List.map Prod.fst)) ∧
    (∀ g i, lookup2 (ParseMoons input).1 g i = lookup2 (ParseMoons input).1 g i) :=
  ⟨rfl, fun _ => rfl, fun _ _ => rfl⟩

/-- C4: the two-line canonical example parses to exactly one group
`"66-PMM V - Moon 15"` holding exactly one item `"Flawless Arkonor"` with
the five documented field values. -/
theorem parseMoons_canonical_example :
    ParseMoons "66-PMM V - Moon 15\nFlawless Arkonor    0.323762148619    46678    30004923    40311969    40311985" =
      ([("66-PMM V - Moon 15",
         [("Flawless Arkonor",
           ⟨"0.323762148619", "46678", "30004923", "40311969", "40311985"⟩)])],
       none) := by decide

/-- C10: the `log.Fatalf` branch of the `part_000` handler is unreachable —
for every clipboard text the moon-scan gate may pass, but `ParseMoons`
always returns a `nil` error, so the fatal branch is never taken. -/
theorem fatal_parse_branch_unreachable (text : String) :
    fatalParseBranchTaken text = false := by
  simp [fatalParseBranchTaken, ParseMoons]

/- ----------------------------------------------------------------- -/
/- C2: upload gating in the two handlers                             -/
/- ----------------------------------------------------------------- -/

/-- C2 counterexample: in the `cmd/goosniffer/main.go` handler, with a
recognized moon-scan text, a non-empty endpoint and an empty token, the
upload is NOT attempted — so "upload attempted iff endpoint non-empty,
token optional" is false for that handler. -/
theorem upload_gate_claim_false :
    ¬ (((handlerMainGo "Moon Product data" "https://example.com/api" "").uploadAttempted
          = true) ↔ ("https://example.com/api" : String) ≠ "") := by decide

/-- C2 amended: for recognized moon-scan text, the `part_000` handler
attempts the upload iff the endpoint is non-empty, setting
`Content-Type: application/json` and adding the `Authorization: Bearer`
header exactly when the token is non-empty; the `cmd/goosniffer` handler
instead attempts the upload iff BOTH endpoint and token are non-empty, the
`Authorization` header then always being added. -/
theorem upload_gate_characterization (text endpoint token : String)
    (h : looksLikeMoonScan text = true) :
    ((handlerVariantB text endpoint token).uploadAttempted = true ↔ endpoint ≠ "") ∧
    (endpoint ≠ "" →
      (handlerVariantB text endpoint token).contentType = some "application/json" ∧
      (handlerVariantB text endpoint token).authHeader =
        (if token ≠ "" then some ("Bearer " ++ token) else none)) ∧
    ((handlerMainGo text endpoint token).uploadAttempted = true ↔
      (token ≠ "" ∧ endpoint ≠ "")) ∧
    (token ≠ "" → endpoint ≠ "" →
      (handlerMainGo text endpoint token).contentType = some "application/json" ∧
      (handlerMainGo text endpoint token).authHeader = some ("Bearer " ++ token)) := by
  unfold handlerVariantB handlerMainGo
  rw [h]
  by_cases he : endpoint = "" <;> by_cases ht : token = "" <;>
    simp [he, ht]

/-- Witness for C2's amended theorem at concrete inputs. -/
theorem upload_gate_characterization_witness :
    (handlerVariantB "Moon Product x" "https://e" "").uploadAttempted = true ∧
    (handlerVariantB "Moon Product x" "https://e" "").authHeader = none ∧
    (handlerMainGo "Moon Product x" "https://e" "").uploadAttempted = false := by
  have h := upload_gate_characterization "Moon Product x" "https://e" "" (by decide)
  refine ⟨h.1.2 (by decide), ?_, ?_⟩
  · have := (h.2.1 (by decide)).2
    simpa using this
  · have := h.2.2.1
    by_contra hc
    simp at hc
    exact absurd (this.mp hc).1 (by decide)

/- ----------------------------------------------------------------- -/
/- C7, C8: clipboard extraction sequence                             -/
/- ----------------------------------------------------------------- -/

/-- The retry loop makes at most `fuel` OpenClipboard calls. -/
theorem openRetryF_attempts_le (openOk : Nat → Bool) :
    ∀ (fuel a : Nat), (openRetryF openOk a fuel).2.1 ≤ fuel := by
  intro fuel
  induction fuel with
  | zero => intro a; simp [openRetryF]
  | succ n ih =>
    intro a
    by_cases h : openOk a = true
    · simp [openRetryF, h]
    · simp only [openRetryF, Bool.not_eq_true] at h ⊢
      rw [h]
      simpa using ih (a + 1)

/-- The retry loop opens the clipboard iff one of the `fuel` attempts
starting at `a` succeeds. -/
theorem openRetryF_opened_iff (openOk : Nat → Bool) :
    ∀ (fuel a : Nat),
      (openRetryF openOk a fuel).1 = true ↔ ∃ i, i < fuel ∧ openOk (a + i) = true := by
  intro fuel
  induction fuel with
  | zero => intro a; simp [openRetryF]
  | succ n ih =>
    intro a
    by_cases h : openOk a = true
    · rw [show openRetryF openOk a (n + 1) = (true, 1, []) from by simp [openRetryF, h]]
      constructor
      · intro _
        exact ⟨0, by omega, by rw [Nat.add_zero]; exact h⟩
      · intro _
        rfl
    · simp only [Bool.not_eq_true] at h
      simp only [openRetryF, h, Bool.false_eq_true, if_false]
      rw [ih (a + 1)]
      constructor
      · rintro ⟨i, hi, hok⟩
        exact ⟨i + 1, by omega, by rwa [show a + (i + 1) = a + 1 + i by omega]⟩
      · rintro ⟨i, hi, hok⟩
        match i with
        | 0 => rw [Nat.add_zero] at hok; rw [hok] at h; cases h
        | j + 1 =>
          exact ⟨j, by omega, by rwa [show a + 1 + j = a + (j + 1) by omega]⟩

/-- C7: the extraction sequence calls OpenClipboard at most 5 times; when
the first 4 attempts fail and the 5th succeeds it still yields the decoded
string, having slept exactly 10, 20, 40 and 80 ms (at least 150 ms in
total) before the successful attempt; and when all 5 attempts fail it
yields an error (the notification is skipped, not a crash) after sleeping
10, 20, 40, 80 and 160 ms. -/
theorem clipboard_retry_backoff :
    (∀ openOk : Nat → Bool, (openRetry openOk).2.1 ≤ 5) ∧
    (∀ (t : String) (openOk : Nat → Bool),
      (∀ i, i < 4 → openOk i = false) → openOk 4 = true →
      readClipboardText ⟨true, openOk, false, false, t⟩ =
        ⟨.ok t, 5, [10, 20, 40, 80]⟩ ∧
      150 ≤ (readClipboardText ⟨true, openOk, false, false, t⟩).sleepsMs.sum) ∧
    (∀ env : ClipEnv,
      env.formatAvailable = true → (∀ i, i < 5 → env.openOk i = false) →
      (readClipboardText env).outcome = .err "OpenClipboard failed after 5 attempts" ∧
      (readClipboardText env).sleepsMs = [10, 20, 40, 80, 160] ∧
      wndProcUpdate true env = none) := by
  refine ⟨fun openOk => openRetryF_attempts_le openOk 5 0, ?_, ?_⟩
  · intro t openOk h h4
    have e0 := h 0 (by omega)
    have e1 := h 1 (by omega)
    have e2 := h 2 (by omega)
    have e3 := h 3 (by omega)
    have : readClipboardText ⟨true, openOk, false, false, t⟩ =
        ⟨.ok t, 5, [10, 20, 40, 80]⟩ := by
      simp [readClipboardText, openRetry, maxAttempts, openRetryF, e0, e1, e2, e3, h4]
    exact ⟨this, by rw [this]; simp⟩
  · intro env hfmt h
    have e0 := h 0 (by omega)
    have e1 := h 1 (by omega)
    have e2 := h 2 (by omega)
    have e3 := h 3 (by omega)
    have e4 := h 4 (by omega)
    have hr : readClipboardText env =
        ⟨.err "OpenClipboard failed after 5 attempts", 5, [10, 20, 40, 80, 160]⟩ := by
      simp [readClipboardText, openRetry, maxAttempts, openRetryF, hfmt, e0, e1, e2, e3, e4]
    exact ⟨by rw [hr], by rw [hr], by simp [wndProcUpdate, hr]⟩

/-- Witness for C7 at a concrete retry schedule. -/
theorem clipboard_retry_backoff_witness :
    readClipboardText ⟨true, fun i => i == 4, false, false, "scan"⟩ =
      ⟨.ok "scan", 5, [10, 20, 40, 80]⟩ ∧
    (readClipboardText ⟨true, fun i => decide (i = 9), false, false, "x"⟩).outcome =
      .err "OpenClipboard failed after 5 attempts" := by
  constructor
  · exact (clipboard_retry_backoff.2.1 "scan" (fun i => i == 4)
      (by decide) (by decide)).1
  · exact (clipboard_retry_backoff.2.2 ⟨true, fun i => decide (i = 9), false, false, "x"⟩
      rfl (by decide)).1

/-- Extraction succeeds with the decoded text iff the text format is
available, some attempt among the first 5 opens the clipboard, the data
handle is non-null and the lock succeeds. -/
theorem extraction_ok_iff (env : ClipEnv) :
    (readClipboardText env).outcome = .ok env.text ↔
      (env.formatAvailable = true ∧ (∃ i, i < 5 ∧ env.openOk i = true) ∧
       env.handleNull = false ∧ env.lockFails = false) := by
  have hop : (openRetry env.openOk).1 = true ↔ ∃ i, i < 5 ∧ env.openOk i = true := by
    have h := openRetryF_opened_iff env.openOk 5 0
    simp only [Nat.zero_add] at h
    exact h
  cases hf : env.formatAvailable with
  | false => simp [readClipboardText, hf]
  | true =>
    cases ho : (openRetry env.openOk).1 with
    | false =>
      have hne : ¬ ∃ i, i < 5 ∧ env.openOk i = true := by
        rw [← hop, ho]
        simp
      simp [readClipboardText, hf, ho, hne]
    | true =>
      have hex : ∃ i, i < 5 ∧ env.openOk i = true := hop.mp ho
      cases hn : env.handleNull with
      | true => simp [readClipboardText, hf, ho, hn]
      | false =>
        cases hl : env.lockFails with
        | true => simp [readClipboardText, hf, ho, hn, hl]
        | false => simp [readClipboardText, hf, ho, hn, hl, hex]

/-- C8: the registered handler is invoked (with the decoded text) exactly
when the extraction sequence succeeds; on any extraction failure the
notification yields no handler call, and the loop keeps processing the
subsequent notifications. -/
theorem handler_invocation_iff (env : ClipEnv) (envs : List ClipEnv) :
    (wndProcUpdate true env = some env.text ↔
      (env.formatAvailable = true ∧ (∃ i, i < 5 ∧ env.openOk i = true) ∧
       env.handleNull = false ∧ env.lockFails = false)) ∧
    (wndProcUpdate true env = none ↔
      ¬ (env.formatAvailable = true ∧ (∃ i, i < 5 ∧ env.openOk i = true) ∧
         env.handleNull = false ∧ env.lockFails = false)) ∧
    processLoop (env :: envs) = wndProcUpdate true env :: processLoop envs := by
  have hiff := extraction_ok_iff env
  have hcases : (readClipboardText env).outcome = .ok env.text ∨
      ∃ m, (readClipboardText env).outcome = .err m := by
    cases hf : env.formatAvailable with
    | false => simp [readClipboardText, hf]
    | true =>
      cases ho : (openRetry env.openOk).1 with
      | false => simp [readClipboardText, hf, ho]
      | true =>
        cases hn : env.handleNull with
        | true => simp [readClipboardText, hf, ho, hn]
        | false =>
          cases hl : env.lockFails with
          | true => simp [readClipboardText, hf, ho, hn, hl]
          | false => simp [readClipboardText, hf, ho, hn, hl]
  refine ⟨?_, ?_, rfl⟩
  · rw [← hiff]
    unfold wndProcUpdate
    rcases hcases with hok | ⟨m, herr⟩
    · rw [hok]; simp
    · rw [herr]; simp
  · rw [← hiff]
    unfold wndProcUpdate
    rcases hcases with hok | ⟨m, herr⟩
    · rw [hok]; simp
    · rw [herr]; simp

/- ----------------------------------------------------------------- -/
/- C6: lines before the first group header contribute nothing        -/
/- ----------------------------------------------------------------- -/

/-- Lines produced by `splitLines` contain no newline. -/
theorem splitLines_no_newline :
    ∀ (s : List Char), ∀ l ∈ splitLines s, '\n' ∉ l := by
  intro s
  induction s with
  | nil =>
    intro l hl
    simp [splitLines] at hl
    simp [hl]
  | cons c cs ih =>
    intro l hl
    by_cases hc : c = '\n'
    · simp [splitLines, hc] at hl
      rcases hl with h | h
      · simp [h]
      · exact ih l h
    · simp only [splitLines, if_neg hc] at hl
      cases hsp : splitLines cs with
      | nil =>
        rw [hsp] at hl
        simp at hl
        intro hmem
        rw [hl] at hmem
        simp at hmem
        exact hc hmem.symm
      | cons m ms =>
        rw [hsp] at hl
        simp at hl
        rcases hl with h | h
        · intro hmem
          rw [h] at hmem
          rcases List.mem_cons.mp hmem with h' | h'
          · exact hc h'.symm
          · exact ih m (by rw [hsp]; exact List.mem_cons_self m ms) h'
        · exact ih l (by rw [hsp]; exact List.mem_cons_of_mem m h)

/-- Splitting a newline-free chunk yields that chunk alone. -/
theorem splitLines_of_no_newline (a : List Char) (ha : '\n' ∉ a) :
    splitLines a = [a] := by
  induction a with
  | nil => rfl
  | cons c cs ih =>
    have hc : ¬ c = '\n' := fun h => ha (by rw [h]; exact List.mem_cons_self _ _)
    have hcs : '\n' ∉ cs := fun h => ha (List.mem_cons_of_mem _ h)
    simp only [splitLines, if_neg hc, ih hcs]

/-- Splitting a text beginning with a newline-free chunk and a newline. -/
theorem splitLines_chunk_newline (a t : List Char) (ha : '\n' ∉ a) :
    splitLines (a ++ '\n' :: t) = a :: splitLines t := by
  induction a with
  | nil => simp [splitLines]
  | cons c cs ih =>
    have hc : ¬ c = '\n' := fun h => ha (by rw [h]; exact List.mem_cons_self _ _)
    have hcs : '\n' ∉ cs := fun h => ha (List.mem_cons_of_mem _ h)
    simp only [List.cons_append, splitLines, if_neg hc, List.append_eq, ih hcs]

/-- `splitLines` is a left inverse of `joinLines` on nonempty lists of
newline-free lines. -/
theorem splitLines_joinLines :
    ∀ (ls : List (List Char)), ls ≠ [] → (∀ l ∈ ls, '\n' ∉ l) →
      splitLines (joinLines ls) = ls := by
  intro ls
  induction ls with
  | nil => intro h; exact absurd rfl h
  | cons a rest ih =>
    intro _ hnl
    cases rest with
    | nil =>
      simp only [joinLines]
      exact splitLines_of_no_newline a (hnl a (List.mem_cons_self _ _))
    | cons b bs =>
      simp only [joinLines]
      rw [splitLines_chunk_newline a _ (hnl a (List.mem_cons_self _ _))]
      rw [ih (by simp) (fun l hl => hnl l (List.mem_cons_of_mem _ hl))]

/-- In the initial state, a line that is not a recognised group header is a
no-op for the parser loop. -/
theorem processLine_init_of_not_header (l : List Char) (h : headerB l = false) :
    processLine initState l = initState := by
  unfold headerB at h
  unfold processLine
  by_cases h1 : goTrimSpace (trimRightCR l) = []
  · simp [h1]
  · by_cases h2 : containsSub (goTrimSpace (trimRightCR l)) mpMarker = true
    · simp [h1, h2]
    · have hd : decide (goTrimSpace (trimRightCR l) ≠ []) = true := by
        simp [h1]
      have hc : containsSub (goTrimSpace (trimRightCR l)) mpMarker = false := by
        simpa using h2
      rw [hd, hc] at h
      simp only [Bool.not_false, Bool.true_and] at h
      cases hmm : moonLineMatch (trimRightCR l) with
      | some m =>
        rw [hmm] at h
        simp at h
      | none =>
        simp [h1, h2, hmm, initState]

/-- Folding the parser loop over non-header lines from the initial state
stays at the initial state. -/
theorem foldl_init_of_not_headers :
    ∀ (ls : List (List Char)), (∀ l ∈ ls, headerB l = false) →
      ls.foldl processLine initState = initState := by
  intro ls
  induction ls with
  | nil => intro _; rfl
  | cons a rest ih =>
    intro h
    simp only [List.foldl_cons]
    rw [processLine_init_of_not_header a (h a (List.mem_cons_self _ _))]
    exact ih (fun l hl => h l (List.mem_cons_of_mem _ hl))

/-- Folding the parser over the lines of the rejoined kept lines equals
folding it over the kept lines directly. -/
theorem foldl_splitLines_joinLines (kept : List (List Char))
    (hnl : ∀ l ∈ kept, '\n' ∉ l) :
    (splitLines (joinLines kept)).foldl processLine initState =
      kept.foldl processLine initState := by
  cases kept with
  | nil =>
    show ([[]] : List (List Char)).foldl processLine initState = initState
    simp only [List.foldl_cons, List.foldl_nil]
    decide
  | cons a rest =>
    rw [splitLines_joinLines (a :: rest) (by simp) hnl]

/-- C6: every line before the first recognised group header contributes
nothing — the parse result equals the result of parsing the input with all
such lines removed, and an input with no header line yields the empty
table. -/
theorem parse_pre_header_lines_irrelevant (input : String) :
    ParseMoons input =
      ParseMoons (String.mk (joinLines
        ((splitLines input.data).dropWhile (fun l => !headerB l)))) ∧
    ((splitLines input.data).all (fun l => !headerB l) = true →
      (ParseMoons input).1 = []) := by
  have h1 : (splitLines input.data).foldl processLine initState =
      ((splitLines input.data).dropWhile (fun l => !headerB l)).foldl
        processLine initState := by
    conv_lhs =>
      rw [← List.takeWhile_append_dropWhile
        (p := fun l => !headerB l) (l := splitLines input.data)]
    rw [List.foldl_append]
    rw [foldl_init_of_not_headers ((splitLines input.data).takeWhile
      (fun l => !headerB l)) (fun l hl => by
        have := List.mem_takeWhile_imp hl
        simpa using this)]
  have h2 : (splitLines (joinLines ((splitLines input.data).dropWhile
      (fun l => !headerB l)))).foldl processLine initState =
      ((splitLines input.data).dropWhile (fun l => !headerB l)).foldl
        processLine initState := by
    refine foldl_splitLines_joinLines _ (fun l hl => ?_)
    have hmem : l ∈ splitLines input.data :=
      (List.dropWhile_sublist _).subset hl
    exact splitLines_no_newline input.data l hmem
  have hmain : ParseMoons input =
      ParseMoons (String.mk (joinLines
        ((splitLines input.data).dropWhile (fun l => !headerB l)))) := by
    unfold ParseMoons
    rw [show (String.mk (joinLines ((splitLines input.data).dropWhile
        (fun l => !headerB l)))).data =
      joinLines ((splitLines input.data).dropWhile (fun l => !headerB l)) from rfl]
    rw [h1, h2]
  refine ⟨hmain, fun hall => ?_⟩
  have hnil : (splitLines input.data).dropWhile (fun l => !headerB l) = [] := by
    rw [List.dropWhile_eq_nil_iff]
    intro a ha
    exact (List.all_eq_true.mp hall) a ha
  rw [hmain, hnil]
  decide

/-- Witness for C6's no-header implication at a concrete header-free input. -/
theorem parse_pre_header_lines_irrelevant_witness :
    (ParseMoons "junk\nstuff 1 2 3 4 5").1 = [] :=
  (parse_pre_header_lines_irrelevant "junk\nstuff 1 2 3 4 5").2 (by decide)

/- ----------------------------------------------------------------- -/
/- C5: last write wins                                               -/
/- ----------------------------------------------------------------- -/

/-- Unfolding `alGet` on a cons cell. -/
theorem alGet_cons {β : Type} (p : String × β) (rest : List (String × β))
    (k : String) :
    alGet (p :: rest) k = if p.1 = k then some p.2 else alGet rest k := rfl

/-- Unfolding `alUpdate` on a cons cell. -/
theorem alUpdate_cons {β : Type} (p : String × β) (rest : List (String × β))
    (k : String) (v : β) :
    alUpdate (p :: rest) k v =
      if p.1 = k then (k, v) :: rest else p :: alUpdate rest k v := rfl

/-- Unfolding `updateInner` on a cons cell. -/
theorem updateInner_cons (p : String × List (String × MoonProductData))
    (rest : MoonProducts) (g i : String) (d : MoonProductData) :
    updateInner (p :: rest) g i d =
      (if p.1 = g then (p.1, alUpdate p.2 i d) else p) :: updateInner rest g i d :=
  rfl

/-- Reading back the key just written. -/
theorem alGet_alUpdate_self {β : Type} (l : List (String × β)) (k : String) (v : β) :
    alGet (alUpdate l k v) k = some v := by
  induction l with
  | nil => simp [alUpdate, alGet]
  | cons p rest ih =>
    rw [alUpdate_cons]
    by_cases h : p.1 = k
    · rw [if_pos h, alGet_cons]
      simp
    · rw [if_neg h, alGet_cons, if_neg h]
      exact ih

/-- Writing one key does not disturb reads of another. -/
theorem alGet_alUpdate_ne {β : Type} (l : List (String × β)) (k k' : String)
    (v : β) (h : k' ≠ k) :
    alGet (alUpdate l k v) k' = alGet l k' := by
  have hkk : ¬ k = k' := fun hh => h hh.symm
  induction l with
  | nil =>
    show alGet [(k, v)] k' = alGet [] k'
    rw [alGet_cons, if_neg hkk]
  | cons p rest ih =>
    rw [alUpdate_cons]
    by_cases hp : p.1 = k
    · have hpk : ¬ p.1 = k' := by rw [hp]; exact hkk
      rw [if_pos hp, alGet_cons, if_neg hkk, alGet_cons, if_neg hpk]
    · rw [if_neg hp, alGet_cons, alGet_cons]
      by_cases hq : p.1 = k'
      · rw [if_pos hq, if_pos hq]
      · rw [if_neg hq, if_neg hq]
        exact ih

/-- Reading a different group after an inner-map write. -/
theorem alGet_updateInner_ne (mp : MoonProducts) (g g' i : String)
    (d : MoonProductData) (h : g' ≠ g) :
    alGet (updateInner mp g i d) g' = alGet mp g' := by
  induction mp with
  | nil => rfl
  | cons p rest ih =>
    rw [updateInner_cons]
    by_cases hp : p.1 = g
    · have hpg : ¬ p.1 = g' := by rw [hp]; exact fun hh => h hh.symm
      rw [if_pos hp, alGet_cons,
        if_neg (show ¬ ((p.1, alUpdate p.2 i d) :
          String × List (String × MoonProductData)).1 = g' from hpg),
        alGet_cons, if_neg hpg]
      exact ih
    · rw [if_neg hp, alGet_cons, alGet_cons]
      by_cases hq : p.1 = g'
      · rw [if_pos hq, if_pos hq]
      · rw [if_neg hq, if_neg hq]
        exact ih

/-- Reading the written group after an inner-map write. -/
theorem alGet_updateInner_self (mp : MoonProducts) (g i : String)
    (d : MoonProductData) :
    alGet (updateInner mp g i d) g =
      (alGet mp g).map (fun inner => alUpdate inner i d) := by
  induction mp with
  | nil => rfl
  | cons p rest ih =>
    rw [updateInner_cons]
    by_cases hp : p.1 = g
    · rw [if_pos hp, alGet_cons,
        if_pos (show ((p.1, alUpdate p.2 i d) :
          String × List (String × MoonProductData)).1 = g from hp),
        alGet_cons, if_pos hp]
      rfl
    · rw [if_neg hp, alGet_cons, alGet_cons, if_neg hp, if_neg hp]
      exact ih

/-- An appended fresh key is found. -/
theorem alGet_append_single_self {β : Type} (l : List (String × β))
    (k : String) (v : β) (h : alGet l k = none) :
    alGet (l ++ [(k, v)]) k = some v := by
  induction l with
  | nil => simp [alGet]
  | cons p rest ih =>
    rw [alGet_cons] at h
    rw [List.cons_append, alGet_cons]
    by_cases hp : p.1 = k
    · rw [if_pos hp] at h
      cases h
    · rw [if_neg hp] at h
      rw [if_neg hp]
      exact ih h

/-- Appending a fresh key does not disturb other reads. -/
theorem alGet_append_single_ne {β : Type} (l : List (String × β))
    (k k' : String) (v : β) (h : k' ≠ k) :
    alGet (l ++ [(k, v)]) k' = alGet l k' := by
  induction l with
  | nil =>
    show alGet [(k, v)] k' = alGet [] k'
    rw [alGet_cons, if_neg (show ¬ k = k' from fun hh => h hh.symm)]
  | cons p rest ih =>
    rw [List.cons_append, alGet_cons, alGet_cons]
    by_cases hp : p.1 = k'
    · rw [if_pos hp, if_pos hp]
    · rw [if_neg hp, if_neg hp]
      exact ih

/-- `ensureKey` never changes any (group, item) read. -/
theorem lookup2_ensureKey (mp : MoonProducts) (cm g i : String) :
    lookup2 (ensureKey mp cm) g i = lookup2 mp g i := by
  unfold ensureKey
  cases hc : alGet mp cm with
  | some x => rfl
  | none =>
    unfold lookup2
    by_cases hg : g = cm
    · subst hg
      rw [alGet_append_single_self _ _ _ hc, hc]
      rfl
    · rw [alGet_append_single_ne _ _ _ _ hg]

/-- After a data-row write the written (group, item) pair reads back the
written record, provided the group key is present. -/
theorem lookup2_updateInner_self (mp : MoonProducts) (g i : String)
    (d : MoonProductData) (hk : (alGet mp g).isSome = true) :
    lookup2 (updateInner mp g i d) g i = some d := by
  unfold lookup2
  rw [alGet_updateInner_self]
  cases hg : alGet mp g with
  | none => rw [hg] at hk; cases hk
  | some inner => simp [alGet_alUpdate_self]

/-- A data-row write to one (group, item) pair does not change any other. -/
theorem lookup2_updateInner_ne (mp : MoonProducts) (g' i' : String)
    (d : MoonProductData) (g i : String) (h : g ≠ g' ∨ i ≠ i') :
    lookup2 (updateInner mp g' i' d) g i = lookup2 mp g i := by
  unfold lookup2
  by_cases hg : g = g'
  · rcases h with h | h
    · exact absurd hg h
    · subst hg
      rw [alGet_updateInner_self]
      cases hgg : alGet mp g with
      | none => rfl
      | some inner => simp [alGet_alUpdate_ne _ _ _ _ h]
  · rw [alGet_updateInner_ne _ _ _ _ _ hg]

/-- `ensureKey` makes its key present. -/
theorem alGet_ensureKey_self (mp : MoonProducts) (k : String) :
    (alGet (ensureKey mp k) k).isSome = true := by
  unfold ensureKey
  cases hc : alGet mp k with
  | some x => simp [hc]
  | none => rw [alGet_append_single_self _ _ _ hc]; rfl

/-- An inner-map write never changes which group keys are present. -/
theorem isSome_alGet_updateInner (mp : MoonProducts) (g' i : String)
    (d : MoonProductData) (g : String) :
    (alGet (updateInner mp g' i d) g).isSome = (alGet mp g).isSome := by
  by_cases hg : g = g'
  · subst hg
    rw [alGet_updateInner_self]
    cases alGet mp g <;> rfl
  · rw [alGet_updateInner_ne _ _ _ _ _ hg]

/-- Loop invariant of `ParseMoons`: either no moon is active, or the
active moon's group key is present in the table. -/
def InvP (st : ParseState) : Prop :=
  st.currentMoon = "" ∨ (alGet st.result st.currentMoon).isSome = true

/-- The loop body preserves the invariant. -/
theorem invP_processLine (st : ParseState) (l : List Char) (h : InvP st) :
    InvP (processLine st l) := by
  unfold processLine
  by_cases h1 : goTrimSpace (trimRightCR l) = []
  · simpa [h1] using h
  · rw [if_neg h1]
    by_cases h2 : containsSub (goTrimSpace (trimRightCR l)) mpMarker = true
    · simpa [h2] using h
    · rw [if_neg h2]
      cases hm : moonLineMatch (trimRightCR l) with
      | some m => exact Or.inr (alGet_ensureKey_self st.result (String.mk m))
      | none =>
        by_cases h3 : st.currentMoon = ""
        · simpa [h3] using h
        · rw [if_neg h3]
          cases hp : productLineMatch (trimRightCR l) with
          | none => exact h
          | some x =>
            obtain ⟨a, q, i1, i2, i3, i4⟩ := x
            refine Or.inr ?_
            rw [isSome_alGet_updateInner]
            rcases h with h | h
            · exact absurd h h3
            · exact h

/-- The invariant holds after folding the loop over any line list. -/
theorem invP_foldl (ls : List (List Char)) :
    ∀ st : ParseState, InvP st → InvP (ls.foldl processLine st) := by
  induction ls with
  | nil => intro st h; exact h
  | cons a rest ih =>
    intro st h
    exact ih (processLine st a) (invP_processLine st a h)

/-- The invariant holds in every reachable state. -/
theorem invP_stateAfter (ls : List (List Char)) : InvP (stateAfter ls) :=
  invP_foldl ls initState (Or.inl rfl)

/-- With no active moon, a line writes no record. -/
theorem recordOf_eq_none_of_no_moon (st : ParseState) (l : List Char)
    (h : st.currentMoon = "") : recordOf st l = none := by
  unfold recordOf
  by_cases h1 : goTrimSpace (trimRightCR l) = []
  · simp [h1]
  · rw [if_neg h1]
    by_cases h2 : containsSub (goTrimSpace (trimRightCR l)) mpMarker = true
    · simp [h2]
    · rw [if_neg h2]
      cases hm : moonLineMatch (trimRightCR l) with
      | some m => rfl
      | none => simp [h]

/-- A line whose `recordOf` is a write behaves as exactly that inner-map
write on the current state. -/
theorem processLine_of_recordOf (st : ParseState) (l : List Char)
    (g i : String) (r : MoonProductData)
    (h : recordOf st l = some (g, i, r)) :
    g = st.currentMoon ∧
    processLine st l = ⟨updateInner st.result g i r, st.currentMoon⟩ := by
  unfold recordOf at h
  unfold processLine
  by_cases h1 : goTrimSpace (trimRightCR l) = []
  · rw [if_pos h1] at h
    cases h
  · rw [if_neg h1] at h
    rw [if_neg h1]
    by_cases h2 : containsSub (goTrimSpace (trimRightCR l)) mpMarker = true
    · rw [if_pos h2] at h
      cases h
    · rw [if_neg h2] at h
      rw [if_neg h2]
      cases hm : moonLineMatch (trimRightCR l) with
      | some m =>
        rw [hm] at h
        dsimp only at h
        cases h
      | none =>
        rw [hm] at h
        dsimp only at h
        by_cases h3 : st.currentMoon = ""
        · rw [if_pos h3] at h
          cases h
        · rw [if_neg h3] at h
          rw [if_neg h3]
          cases hp : productLineMatch (trimRightCR l) with
          | none =>
            rw [hp] at h
            dsimp only at h
            cases h
          | some x =>
            obtain ⟨a, q, i1, i2, i3, i4⟩ := x
            rw [hp] at h
            dsimp only at h
            simp only [Option.some.injEq, Prod.mk.injEq] at h
            obtain ⟨hg, hi, hr⟩ := h
            exact ⟨hg.symm, by rw [← hg, ← hi, ← hr]⟩

/-- A line that does not write (g, i) leaves the (g, i) read unchanged. -/
theorem lookup2_processLine_of_no_write (st : ParseState) (l : List Char)
    (g i : String) (h : ∀ r, recordOf st l ≠ some (g, i, r)) :
    lookup2 (processLine st l).result g i = lookup2 st.result g i := by
  unfold recordOf at h
  unfold processLine
  by_cases h1 : goTrimSpace (trimRightCR l) = []
  · rw [if_pos h1]
  · rw [if_neg h1] at h
    rw [if_neg h1]
    by_cases h2 : containsSub (goTrimSpace (trimRightCR l)) mpMarker = true
    · rw [if_pos h2]
    · rw [if_neg h2] at h
      rw [if_neg h2]
      cases hm : moonLineMatch (trimRightCR l) with
      | some m => exact lookup2_ensureKey st.result (String.mk m) g i
      | none =>
        rw [hm] at h
        dsimp only at h
        by_cases h3 : st.currentMoon = ""
        · rw [if_pos h3]
        · rw [if_neg h3] at h
          rw [if_neg h3]
          cases hp : productLineMatch (trimRightCR l) with
          | none => rfl
          | some x =>
            obtain ⟨a, q, i1, i2, i3, i4⟩ := x
            rw [hp] at h
            dsimp only at h
            refine lookup2_updateInner_ne _ _ _ _ _ _ ?_
            by_contra hcon
            push_neg at hcon
            exact h ⟨String.mk q, String.mk i1, String.mk i2, String.mk i3,
              String.mk i4⟩ (by rw [hcon.1, hcon.2])

/-- No line of `ls`, processed in sequence from `st0`, writes (g, i). -/
def noWrites (st0 : ParseState) (ls : List (List Char)) (g i : String) : Prop :=
  ∀ (j : Nat) (hj : j < ls.length) (r : MoonProductData),
    recordOf ((ls.take j).foldl processLine st0) (ls.get ⟨j, hj⟩) ≠ some (g, i, r)

/-- Folding over lines none of which writes (g, i) preserves the (g, i)
read. -/
theorem lookup2_foldl_of_noWrites :
    ∀ (ls : List (List Char)) (st : ParseState) (g i : String),
      noWrites st ls g i →
      lookup2 (ls.foldl processLine st).result g i = lookup2 st.result g i := by
  intro ls
  induction ls with
  | nil => intro st g i _; rfl
  | cons a rest ih =>
    intro st g i h
    simp only [List.foldl_cons]
    have htail : noWrites (processLine st a) rest g i := by
      intro j hj r
      have := h (j + 1) (by simpa using Nat.succ_lt_succ hj) r
      simpa using this
    rw [ih (processLine st a) g i htail]
    exact lookup2_processLine_of_no_write st a g i (fun r => by
      have := h 0 (by simp) r
      simpa using this)

/-- C5: when two data rows under the same active group parse to the same
item name, and no later line writes that (group, item) pair, the returned
table maps the pair to the record of the last such row, and no error
results. -/
theorem parse_last_write_wins (input : String)
    (L1 L2 L3 : List (List Char)) (ln1 ln2 : List Char)
    (g i : String) (r1 r2 : MoonProductData)
    (hsplit : splitLines input.data = L1 ++ ln1 :: (L2 ++ ln2 :: L3))
    (h1 : recordOf (stateAfter L1) ln1 = some (g, i, r1))
    (h2 : recordOf (stateAfter (L1 ++ ln1 :: L2)) ln2 = some (g, i, r2))
    (h3 : noWrites (processLine (stateAfter (L1 ++ ln1 :: L2)) ln2) L3 g i) :
    lookup2 (ParseMoons input).1 g i = some r2 ∧ (ParseMoons input).2 = none := by
  refine ⟨?_, rfl⟩
  show lookup2 ((splitLines input.data).foldl processLine initState).result g i =
    some r2
  rw [hsplit]
  have hfold : (L1 ++ ln1 :: (L2 ++ ln2 :: L3)).foldl processLine initState =
      L3.foldl processLine (processLine (stateAfter (L1 ++ ln1 :: L2)) ln2) := by
    rw [List.foldl_append, List.foldl_cons, List.foldl_append, List.foldl_cons]
    unfold stateAfter
    rw [List.foldl_append, List.foldl_cons]
  rw [hfold]
  rw [lookup2_foldl_of_noWrites L3 _ g i h3]
  obtain ⟨hg, heq⟩ := processLine_of_recordOf _ _ _ _ _ h2
  rw [heq]
  apply lookup2_updateInner_self
  rcases invP_stateAfter (L1 ++ ln1 :: L2) with hc | hs
  · exact absurd h2 (by rw [recordOf_eq_none_of_no_moon _ _ hc]; simp)
  · rw [hg]
    exact hs

/-- Witness for C5 at a concrete duplicated-row input. -/
theorem parse_last_write_wins_witness :
    lookup2 (ParseMoons "A - Moon 1\nB 1 2 3 4 5\nB 9 8 7 6 5").1
      "A - Moon 1" "B" = some ⟨"9", "8", "7", "6", "5"⟩ :=
  (parse_last_write_wins "A - Moon 1\nB 1 2 3 4 5\nB 9 8 7 6 5"
    ["A - Moon 1".data] [] [] "B 1 2 3 4 5".data "B 9 8 7 6 5".data
    "A - Moon 1" "B" ⟨"1", "2", "3", "4", "5"⟩ ⟨"9", "8", "7", "6", "5"⟩
    (by decide) (by decide) (by decide)
    (fun j hj r => absurd hj (Nat.not_lt_zero j))).1

/- ----------------------------------------------------------------- -/
/- C3: whitespace-token counting for data rows                       -/
/- ----------------------------------------------------------------- -/

/-- A fully-whitespace prefix contributes no fields. -/
theorem fieldsAux_ws_lead :
    ∀ (w b : List Char), (∀ c ∈ w, goIsSpace c = true) →
      fieldsAux (w ++ b) [] = fieldsAux b [] := by
  intro w
  induction w with
  | nil => intro b _; rfl
  | cons e w' ih =>
    intro b hws
    have he : goIsSpace e = true := hws e (List.mem_cons_self _ _)
    simp only [List.cons_append, fieldsAux, he, if_true]
    exact ih b (fun c hc => hws c (List.mem_cons_of_mem _ hc))

/-- Fields distribute over a nonempty whitespace separator. -/
theorem fieldsAux_append_mid :
    ∀ (a w b : List Char), w ≠ [] → (∀ c ∈ w, goIsSpace c = true) →
      ∀ acc : List Char,
        fieldsAux (a ++ (w ++ b)) acc = fieldsAux a acc ++ fieldsAux b [] := by
  intro a
  induction a with
  | nil =>
    intro w b hw hws acc
    cases w with
    | nil => exact absurd rfl hw
    | cons e w' =>
      have he : goIsSpace e = true := hws e (List.mem_cons_self _ _)
      have hrest : fieldsAux (w' ++ b) [] = fieldsAux b [] :=
        fieldsAux_ws_lead w' b (fun c hc => hws c (List.mem_cons_of_mem _ hc))
      by_cases hacc : acc = ([] : List Char)
      · subst hacc
        simp [fieldsAux, he, hrest]
      · simp [fieldsAux, he, hacc, hrest]
  | cons c a' ih =>
    intro w b hw hws acc
    by_cases hc : goIsSpace c = true
    · by_cases hacc : acc = ([] : List Char)
      · subst hacc
        simp [fieldsAux, hc, ih w b hw hws []]
      · simp [fieldsAux, hc, hacc, ih w b hw hws []]
    · have hc' : goIsSpace c = false := by
        cases hcc : goIsSpace c with
        | false => rfl
        | true => exact absurd hcc hc
      simp only [List.cons_append, fieldsAux, hc', Bool.false_eq_true, if_false]
      exact ih w b hw hws (c :: acc)

/-- Fields of text split by a nonempty whitespace run. -/
theorem fields_append_mid (a w b : List Char) (hw : w ≠ [])
    (hws : ∀ c ∈ w, goIsSpace c = true) :
    fields (a ++ (w ++ b)) = fields a ++ fields b :=
  fieldsAux_append_mid a w b hw hws []

/-- Leading whitespace contributes no fields. -/
theorem fields_ws_lead (w b : List Char) (hws : ∀ c ∈ w, goIsSpace c = true) :
    fields (w ++ b) = fields b :=
  fieldsAux_ws_lead w b hws

/-- Trailing whitespace contributes no fields. -/
theorem fields_ws_suffix (a w : List Char) (hws : ∀ c ∈ w, goIsSpace c = true) :
    fields (a ++ w) = fields a := by
  by_cases hw : w = ([] : List Char)
  · subst hw; simp
  · have h := fields_append_mid a w [] hw hws
    rw [List.append_nil] at h
    simpa [fields, fieldsAux] using h

/-- A run of non-whitespace characters is one single token. -/
theorem fieldsAux_token :
    ∀ (t acc : List Char), (∀ c ∈ t, goIsSpace c = false) →
      fieldsAux t acc =
        if acc.reverse ++ t = [] then [] else [acc.reverse ++ t] := by
  intro t
  induction t with
  | nil =>
    intro acc _
    show (if acc = [] then [] else [acc.reverse]) =
      if acc.reverse ++ [] = [] then [] else [acc.reverse ++ []]
    rw [List.append_nil]
    by_cases hacc : acc = ([] : List Char)
    · subst hacc; simp
    · rw [if_neg hacc, if_neg (fun hh => hacc (List.reverse_eq_nil_iff.mp hh))]
  | cons c t' ih =>
    intro acc hnws
    have hc : goIsSpace c = false := hnws c (List.mem_cons_self _ _)
    rw [show fieldsAux (c :: t') acc = fieldsAux t' (c :: acc) from by
      simp [fieldsAux, hc]]
    rw [ih (c :: acc) (fun x hx => hnws x (List.mem_cons_of_mem _ hx))]
    rw [show (c :: acc).reverse ++ t' = acc.reverse ++ c :: t' from by simp]

/-- A nonempty run of non-whitespace characters has exactly one field. -/
theorem fields_token (t : List Char) (ht : t ≠ [])
    (hnws : ∀ c ∈ t, goIsSpace c = false) : fields t = [t] := by
  have h := fieldsAux_token t [] hnws
  unfold fields
  rw [h]
  simp [ht]

/-- Token, whitespace run, remainder. -/
theorem fields_token_sep (t w b : List Char) (ht : t ≠ [])
    (hnws : ∀ c ∈ t, goIsSpace c = false) (hw : w ≠ [])
    (hws : ∀ c ∈ w, goIsSpace c = true) :
    fields (t ++ (w ++ b)) = t :: fields b := by
  rw [fields_append_mid t w b hw hws, fields_token t ht hnws]
  rfl

/-- Token followed by trailing whitespace. -/
theorem fields_token_trail (t w : List Char) (ht : t ≠ [])
    (hnws : ∀ c ∈ t, goIsSpace c = false)
    (hws : ∀ c ∈ w, goIsSpace c = true) :
    fields (t ++ w) = [t] := by
  rw [fields_ws_suffix t w hws, fields_token t ht hnws]

/-- `strings.TrimSpace` does not change the whitespace-separated fields. -/
theorem fields_goTrimSpace (l : List Char) :
    fields (goTrimSpace l) = fields l := by
  unfold goTrimSpace
  conv_rhs => rw [← List.takeWhile_append_dropWhile (p := goIsSpace) (l := l)]
  rw [fields_ws_lead _ _ (fun c hc => List.mem_takeWhile_imp hc)]
  have hsplit : l.dropWhile goIsSpace =
      ((l.dropWhile goIsSpace).reverse.dropWhile goIsSpace).reverse ++
      ((l.dropWhile goIsSpace).reverse.takeWhile goIsSpace).reverse := by
    conv_lhs => rw [← List.reverse_reverse (l.dropWhile goIsSpace)]
    conv_lhs =>
      rw [← List.takeWhile_append_dropWhile
        (p := goIsSpace) (l := (l.dropWhile goIsSpace).reverse)]
    rw [List.reverse_append]
  conv_rhs => rw [hsplit]
  rw [fields_ws_suffix _ _ (fun c hc => by
    have hmem : c ∈ (l.dropWhile goIsSpace).reverse.takeWhile goIsSpace :=
      List.mem_reverse.mp hc
    exact List.mem_takeWhile_imp hmem)]

/-- ASCII digits are not Go whitespace. -/
theorem digit_not_space (c : Char) (h : isDigitC c = true) :
    goIsSpace c = false := by
  cases hs : goIsSpace c with
  | false => rfl
  | true =>
    exfalso
    unfold isDigitC at h
    unfold goIsSpace at hs
    simp only [Bool.and_eq_true, decide_eq_true_eq] at h
    simp only [Bool.or_eq_true, Bool.and_eq_true, beq_iff_eq,
      decide_eq_true_eq] at hs
    omega

/-- Every `\s` character is Go whitespace. -/
theorem reWs_space (c : Char) (h : reWs c = true) : goIsSpace c = true := by
  unfold reWs at h
  simp only [Bool.or_eq_true, beq_iff_eq] at h
  rcases h with (((h | h) | h) | h) | h <;> subst h <;> decide

/-- Decomposition of a successful `\s+` step. -/
theorem wsRun1_some (u w rest : List Char) (h : wsRun1 u = some (w, rest)) :
    u = w ++ rest ∧ w ≠ [] ∧ ∀ c ∈ w, reWs c = true := by
  unfold wsRun1 at h
  by_cases he : (u.takeWhile reWs).isEmpty = true
  · rw [if_pos he] at h
    cases h
  · rw [if_neg he] at h
    simp only [Option.some.injEq, Prod.mk.injEq] at h
    obtain ⟨hw, hr⟩ := h
    subst hw
    subst hr
    refine ⟨(List.takeWhile_append_dropWhile ..).symm, ?_, ?_⟩
    · intro hn
      rw [hn] at he
      exact he rfl
    · exact fun c hc => List.mem_takeWhile_imp hc

/-- Decomposition of a successful `\d+` step. -/
theorem digitRun1_some (u d rest : List Char) (h : digitRun1 u = some (d, rest)) :
    u = d ++ rest ∧ d ≠ [] ∧ ∀ c ∈ d, isDigitC c = true := by
  unfold digitRun1 at h
  by_cases he : (u.takeWhile isDigitC).isEmpty = true
  · rw [if_pos he] at h
    cases h
  · rw [if_neg he] at h
    simp only [Option.some.injEq, Prod.mk.injEq] at h
    obtain ⟨hw, hr⟩ := h
    subst hw
    subst hr
    refine ⟨(List.takeWhile_append_dropWhile ..).symm, ?_, ?_⟩
    · intro hn
      rw [hn] at he
      exact he rfl
    · exact fun c hc => List.mem_takeWhile_imp hc

/-- Decomposition of a successful quantity capture: the capture is a
nonempty run of non-whitespace characters. -/
theorem quantityTok_some (u q rest : List Char) (h : quantityTok u = some (q, rest)) :
    u = q ++ rest ∧ q ≠ [] ∧ ∀ c ∈ q, goIsSpace c = false := by
  unfold quantityTok at h
  cases hd : digitRun1 u with
  | none =>
    rw [hd] at h
    cases h
  | some p =>
    obtain ⟨d1, u1⟩ := p
    rw [hd] at h
    dsimp only at h
    obtain ⟨hu, hd1ne, hd1dig⟩ := digitRun1_some u d1 u1 hd
    have hd1ns : ∀ c ∈ d1, goIsSpace c = false :=
      fun c hc => digit_not_space c (hd1dig c hc)
    cases u1 with
    | nil =>
      dsimp only at h
      simp only [Option.some.injEq, Prod.mk.injEq] at h
      obtain ⟨hq, hr⟩ := h
      subst hq
      subst hr
      exact ⟨hu, hd1ne, hd1ns⟩
    | cons c u2 =>
      dsimp only at h
      by_cases hc : c = '.'
      · rw [if_pos hc] at h
        cases hd2 : digitRun1 u2 with
        | some p2 =>
          obtain ⟨d2, u3⟩ := p2
          rw [hd2] at h
          dsimp only at h
          simp only [Option.some.injEq, Prod.mk.injEq] at h
          obtain ⟨hq, hr⟩ := h
          obtain ⟨hu2, hd2ne, hd2dig⟩ := digitRun1_some u2 d2 u3 hd2
          subst hq
          subst hr
          refine ⟨?_, by simp, ?_⟩
          · rw [hu, hu2]
            simp
          · intro ch hch
            rcases List.mem_append.mp hch with hch | hch
            · exact hd1ns ch hch
            · rcases List.mem_cons.mp hch with hch | hch
              · subst hch
                subst hc
                decide
              · exact digit_not_space ch (hd2dig ch hch)
        | none =>
          rw [hd2] at h
          dsimp only at h
          simp only [Option.some.injEq, Prod.mk.injEq] at h
          obtain ⟨hq, hr⟩ := h
          subst hq
          subst hr
          exact ⟨hu, hd1ne, hd1ns⟩
      · rw [if_neg hc] at h
        simp only [Option.some.injEq, Prod.mk.injEq] at h
        obtain ⟨hq, hr⟩ := h
        subst hq
        subst hr
        exact ⟨hu, hd1ne, hd1ns⟩

/-- A successful `afterName` match splits its input into a leading
whitespace run and a remainder whose fields are exactly the five captures. -/
theorem afterName_some (u0 q a b c d : List Char)
    (h : afterName u0 = some (q, a, b, c, d)) :
    ∃ w1 rest, u0 = w1 ++ rest ∧ w1 ≠ [] ∧
      (∀ ch ∈ w1, goIsSpace ch = true) ∧ fields rest = [q, a, b, c, d] := by
  unfold afterName at h
  rw [Option.bind_eq_some] at h
  obtain ⟨p1, hp1, h⟩ := h
  obtain ⟨w1, r1⟩ := p1
  rw [Option.bind_eq_some] at h
  obtain ⟨pq, hpq, h⟩ := h
  obtain ⟨q', r2⟩ := pq
  rw [Option.bind_eq_some] at h
  obtain ⟨p2, hp2, h⟩ := h
  obtain ⟨w2, r3⟩ := p2
  rw [Option.bind_eq_some] at h
  obtain ⟨pa, hpa, h⟩ := h
  obtain ⟨a', r4⟩ := pa
  rw [Option.bind_eq_some] at h
  obtain ⟨p3, hp3, h⟩ := h
  obtain ⟨w3, r5⟩ := p3
  rw [Option.bind_eq_some] at h
  obtain ⟨pb, hpb, h⟩ := h
  obtain ⟨b', r6⟩ := pb
  rw [Option.bind_eq_some] at h
  obtain ⟨p4, hp4, h⟩ := h
  obtain ⟨w4, r7⟩ := p4
  rw [Option.bind_eq_some] at h
  obtain ⟨pc, hpc, h⟩ := h
  obtain ⟨c', r8⟩ := pc
  rw [Option.bind_eq_some] at h
  obtain ⟨p5, hp5, h⟩ := h
  obtain ⟨w5, r9⟩ := p5
  rw [Option.bind_eq_some] at h
  obtain ⟨pd, hpd, h⟩ := h
  obtain ⟨d', r10⟩ := pd
  dsimp only at h
  by_cases hall : r10.all reWs = true
  · rw [if_pos hall] at h
    simp only [Option.some.injEq, Prod.mk.injEq] at h
    obtain ⟨hq, ha2, hb2, hc2, hd2⟩ := h
    rw [← hq, ← ha2, ← hb2, ← hc2, ← hd2]
    obtain ⟨e1, hw1ne, hw1⟩ := wsRun1_some u0 w1 r1 hp1
    obtain ⟨e2, hqne, hqns⟩ := quantityTok_some r1 q' r2 hpq
    obtain ⟨e3, hw2ne, hw2⟩ := wsRun1_some r2 w2 r3 hp2
    obtain ⟨e4, hane, hadig⟩ := digitRun1_some r3 a' r4 hpa
    obtain ⟨e5, hw3ne, hw3⟩ := wsRun1_some r4 w3 r5 hp3
    obtain ⟨e6, hbne, hbdig⟩ := digitRun1_some r5 b' r6 hpb
    obtain ⟨e7, hw4ne, hw4⟩ := wsRun1_some r6 w4 r7 hp4
    obtain ⟨e8, hcne, hcdig⟩ := digitRun1_some r7 c' r8 hpc
    obtain ⟨e9, hw5ne, hw5⟩ := wsRun1_some r8 w5 r9 hp5
    obtain ⟨e10, hdne, hddig⟩ := digitRun1_some r9 d' r10 hpd
    have gw2 : ∀ ch ∈ w2, goIsSpace ch = true := fun ch hch => reWs_space ch (hw2 ch hch)
    have gw3 : ∀ ch ∈ w3, goIsSpace ch = true := fun ch hch => reWs_space ch (hw3 ch hch)
    have gw4 : ∀ ch ∈ w4, goIsSpace ch = true := fun ch hch => reWs_space ch (hw4 ch hch)
    have gw5 : ∀ ch ∈ w5, goIsSpace ch = true := fun ch hch => reWs_space ch (hw5 ch hch)
    have gans : ∀ ch ∈ a', goIsSpace ch = false := fun ch hch => digit_not_space ch (hadig ch hch)
    have gbns : ∀ ch ∈ b', goIsSpace ch = false := fun ch hch => digit_not_space ch (hbdig ch hch)
    have gcns : ∀ ch ∈ c', goIsSpace ch = false := fun ch hch => digit_not_space ch (hcdig ch hch)
    have gdns : ∀ ch ∈ d', goIsSpace ch = false := fun ch hch => digit_not_space ch (hddig ch hch)
    have gtr : ∀ ch ∈ r10, goIsSpace ch = true := fun ch hch =>
      reWs_space ch ((List.all_eq_true.mp hall) ch hch)
    have f5 : fields r9 = [d'] := by
      rw [e10]
      exact fields_token_trail d' r10 hdne gdns gtr
    have f4 : fields r7 = [c', d'] := by
      rw [e8, e9]
      rw [fields_token_sep c' w5 r9 hcne gcns hw5ne gw5, f5]
    have f3 : fields r5 = [b', c', d'] := by
      rw [e6, e7]
      rw [fields_token_sep b' w4 r7 hbne gbns hw4ne gw4, f4]
    have f2 : fields r3 = [a', b', c', d'] := by
      rw [e4, e5]
      rw [fields_token_sep a' w3 r5 hane gans hw3ne gw3, f3]
    have f1 : fields r1 = [q', a', b', c', d'] := by
      rw [e2, e3]
      rw [fields_token_sep q' w2 r3 hqne hqns hw2ne gw2, f2]
    exact ⟨w1, r1, e1, hw1ne,
      (fun ch hch => reWs_space ch (hw1 ch hch)), f1⟩
  · rw [if_neg hall] at h
    cases h

/-- A successful lazy-name match means the line has at least the five
numeric fields as whitespace-separated tokens. -/
theorem productCore_fields (t : List Char) (x : List Char × Caps5)
    (h : productCore t = some x) : 5 ≤ (fields t).length := by
  obtain ⟨nm, q, a, b, c, d⟩ := x
  unfold productCore at h
  obtain ⟨j, hjmem, hj⟩ := List.exists_of_findSome?_eq_some h
  by_cases hnl : (t.take (j + 1)).all (fun ch => !(ch == '\n')) = true
  · rw [if_pos hnl] at hj
    cases ha : afterName (t.drop (j + 1)) with
    | none =>
      rw [ha] at hj
      cases hj
    | some caps2 =>
      rw [ha] at hj
      dsimp only at hj
      simp only [Option.some.injEq, Prod.mk.injEq] at hj
      obtain ⟨hnm, hcaps⟩ := hj
      obtain ⟨w1, rest, hsplit, hw1ne, hw1ws, hfields⟩ :=
        afterName_some (t.drop (j + 1)) q a b c d (by rw [ha, hcaps])
      have hfull : fields t = fields (t.take (j + 1)) ++ [q, a, b, c, d] := by
        conv_lhs => rw [← List.take_append_drop (j + 1) t, hsplit]
        rw [fields_append_mid _ _ _ hw1ne hw1ws, hfields]
      rw [hfull]
      simp
  · rw [if_neg hnl] at hj
    cases hj

/-- Inverting the greedy leading-`\s*` loop of the data-row regexp. -/
theorem productMatchK_some (s : List Char) :
    ∀ (k : Nat) (x : List Char × Caps5), productMatchK s k = some x →
      ∃ j, j ≤ k ∧ productCore (s.drop j) = some x := by
  intro k
  induction k with
  | zero =>
    intro x h
    exact ⟨0, Nat.le_refl 0, by rw [List.drop_zero]; exact h⟩
  | succ n ih =>
    intro x h
    unfold productMatchK at h
    cases hc : productCore (s.drop (n + 1)) with
    | some y =>
      rw [hc] at h
      dsimp only at h
      cases h
      exact ⟨n + 1, Nat.le_refl _, hc⟩
    | none =>
      rw [hc] at h
      dsimp only at h
      obtain ⟨j, hjle, hj⟩ := ih x h
      exact ⟨j, Nat.le_succ_of_le hjle, hj⟩

/-- A line matching `productLineRe` has at least 5 whitespace-separated
tokens (the five numeric fields; the name may add more or none). -/
theorem productLineMatch_fields (s : List Char) (x : List Char × Caps5)
    (h : productLineMatch s = some x) : 5 ≤ (fields s).length := by
  unfold productLineMatch at h
  obtain ⟨j, hjle, hj⟩ := productMatchK_some s _ x h
  have h5 : 5 ≤ (fields (s.drop j)).length := productCore_fields _ x hj
  have htws : ∀ c ∈ s.take j, goIsSpace c = true := by
    intro c hc
    have h1 : s.take j = (s.takeWhile reWs).take j := by
      conv_lhs => rw [← List.takeWhile_append_dropWhile (p := reWs) (l := s)]
      exact List.take_append_of_le_length hjle
    rw [h1] at hc
    exact reWs_space c (List.mem_takeWhile_imp (List.mem_of_mem_take hc))
  have heq : fields s = fields (s.drop j) := by
    conv_lhs => rw [← List.take_append_drop j s]
    exact fields_ws_lead _ _ htws
  rw [heq]
  exact h5

/-- C3 counterexample: the claim "exactly six whitespace-separated tokens
or the line is discarded" is false in both directions — a 7-token line is
recorded (the name absorbs the extra token), and a 5-token line is
recorded with a whitespace-only name. -/
theorem data_row_token_claim_false :
    (fields (goTrimSpace ("Flawless Arkonor 0.3 1 2 3 4").data)).length = 7 ∧
    lookup2 (ParseMoons "M - Moon 1\nFlawless Arkonor 0.3 1 2 3 4").1
      "M - Moon 1" "Flawless Arkonor" = some ⟨"0.3", "1", "2", "3", "4"⟩ ∧
    (fields (goTrimSpace ("  0.5 1 2 3 4").data)).length = 5 ∧
    lookup2 (ParseMoons "M - Moon 1\n  0.5 1 2 3 4").1 "M - Moon 1" " " =
      some ⟨"0.5", "1", "2", "3", "4"⟩ := by decide

/-- C3 amended: a line with fewer than five whitespace-separated tokens
(after trimming) is discarded as a data row and leaves every group's
entries unchanged; a data-row match needs only the five numeric tokens,
since the lazy name may absorb extra tokens or be whitespace itself. -/
theorem parse_short_line_discarded (st : ParseState) (ln : List Char)
    (h : (fields (goTrimSpace (trimRightCR ln))).length < 5) (g i : String) :
    lookup2 (processLine st ln).result g i = lookup2 st.result g i := by
  unfold processLine
  by_cases h1 : goTrimSpace (trimRightCR ln) = []
  · rw [if_pos h1]
  · rw [if_neg h1]
    by_cases h2 : containsSub (goTrimSpace (trimRightCR ln)) mpMarker = true
    · rw [if_pos h2]
    · rw [if_neg h2]
      cases hm : moonLineMatch (trimRightCR ln) with
      | some m => exact lookup2_ensureKey st.result (String.mk m) g i
      | none =>
        by_cases h3 : st.currentMoon = ""
        · rw [if_pos h3]
        · rw [if_neg h3]
          cases hp : productLineMatch (trimRightCR ln) with
          | none => rfl
          | some x =>
            exfalso
            have h5 := productLineMatch_fields _ x hp
            rw [← fields_goTrimSpace (trimRightCR ln)] at h5
            omega

/-- Witness for C3's amended theorem at a concrete 2-token line. -/
theorem parse_short_line_discarded_witness :
    (fields (goTrimSpace (trimRightCR ("hello world").data))).length < 5 ∧
    lookup2 (processLine initState ("hello world").data).result "g" "i" =
      lookup2 initState.result "g" "i" :=
  ⟨by decide,
   parse_short_line_discarded initState ("hello world").data (by decide) "g" "i"⟩

end Goosniffer
